import Mathlib

/-!
Verification of the CoBuild knowledge-ingestion core against its
natural-language specification.

The development shallowly embeds the relevant TypeScript services:

* `EmbeddingService.chunkText` (embedding.service.ts) — word-bounded
  overlapping chunking;
* `RagService.retrieveContext` / `buildAugmentedPrompt` / `augment`
  (rag.service.ts) — relevance filtering and prompt augmentation;
* `CrawlService.normalizeUrl`, `cancelJob` and `processCrawlJob`
  (crawl.service.ts) — URL canonicalization, the cancel state machine
  and the breadth-first crawl loop;
* `TrainingWorker.process{Qna,Text,CrawlPage}` (training.worker.ts) —
  per-source-type training dispatch.

Effectful collaborators (Prisma store, BullMQ queue, OpenAI embedding
calls, HTTP fetch) are modelled by explicit state passing and by oracle
functions passed as parameters.  JavaScript `while` loops whose
termination depends on runtime arguments are modelled with an explicit
fuel parameter returning `Option`, so that divergence is observable as
`none`.
-/

namespace CoBuild

/-! ### Text chunker — `EmbeddingService.chunkText`

Source (embedding.service.ts):

```
chunkText(text: string, chunkSize = 500, overlap = 50): string[] {
  const words = text.split(/\s+/).filter(Boolean);
  if (words.length === 0) return [];
  const chunks: string[] = [];
  let start = 0;
  while (start < words.length) {
    const end = Math.min(start + chunkSize, words.length);
    const chunk = words.slice(start, end).join(' ');
    chunks.push(chunk);
    if (end >= words.length) break;
    start += chunkSize - overlap;
  }
  return chunks;
}
```
-/

/-- Whitespace test used to model the JavaScript regex `\s+` word split
(the inputs at issue only use the four ASCII whitespace characters). -/
def isWsChar (c : Char) : Bool :=
  c = ' ' || c = '\t' || c = '\n' || c = '\r'

/-- Accumulator pass behind `splitWords`: `acc` holds the current word's
characters in reverse. -/
def wordsAux : List Char → List Char → List String
  | [], acc => if acc = [] then [] else [String.mk acc.reverse]
  | c :: cs, acc =>
    if isWsChar c then
      if acc = [] then wordsAux cs [] else String.mk acc.reverse :: wordsAux cs []
    else wordsAux cs (c :: acc)

/-- Model of `text.split(/\s+/).filter(Boolean)`: the maximal runs of
non-whitespace characters, in order. -/
def splitWords (text : String) : List String :=
  wordsAux text.data []

/-- One `while` loop of `chunkText`, producing the joined chunk strings.
`fuel` bounds the number of iterations (the JavaScript loop diverges when
`chunkSize ≤ overlap`, which the `none` result makes observable);
`start` is the mutable slice cursor. -/
def chunkGo (csz ov : Nat) (ws : List String) : Nat → Nat → Option (List String)
  | 0, _ => none
  | fuel + 1, start =>
    if start < ws.length then
      let e := min (start + csz) ws.length
      let chunk := String.intercalate " " ((ws.drop start).take (e - start))
      if ws.length ≤ e then some [chunk]
      else Option.map (fun rest => chunk :: rest) (chunkGo csz ov ws fuel (start + (csz - ov)))
    else some []

/-- Word-level twin of `chunkGo`: the same loop, returning the word
slices rather than their space-joined strings. -/
def chunkGoW (csz ov : Nat) (ws : List String) : Nat → Nat → Option (List (List String))
  | 0, _ => none
  | fuel + 1, start =>
    if start < ws.length then
      let e := min (start + csz) ws.length
      let chunk := (ws.drop start).take (e - start)
      if ws.length ≤ e then some [chunk]
      else Option.map (fun rest => chunk :: rest) (chunkGoW csz ov ws fuel (start + (csz - ov)))
    else some []

/-- `EmbeddingService.chunkText`, fuelled.  `words.length + 1` iterations
always suffice when `overlap < chunkSize` (proved below). -/
def chunkTextF (text : String) (csz ov : Nat) : Option (List String) :=
  let ws := splitWords text
  if ws.length = 0 then some [] else chunkGo csz ov ws (ws.length + 1) 0

/-- `EmbeddingService.chunkText` with the source's default parameters,
total by construction on the fuelled loop. -/
def chunkText (text : String) (csz : Nat := 500) (ov : Nat := 50) : List String :=
  (chunkTextF text csz ov).getD []

theorem chunkGo_eq_map (csz ov : Nat) (ws : List String) :
    ∀ fuel start, chunkGo csz ov ws fuel start
      = Option.map (List.map (String.intercalate " ")) (chunkGoW csz ov ws fuel start) := by
  intro fuel
  induction fuel with
  | zero => intro start; rfl
  | succ n ih =>
    intro start
    by_cases h : start < ws.length
    · by_cases h2 : ws.length ≤ start + csz
      · simp [chunkGo, chunkGoW, h, h2]
      · simp [chunkGo, chunkGoW, h, h2, ih, Option.map_map]
        rfl
    · simp [chunkGo, chunkGoW, h]

theorem chunkGo_isSome (csz ov : Nat) (ws : List String) (hov : ov < csz) :
    ∀ fuel start, ws.length - start < fuel → (chunkGo csz ov ws fuel start).isSome := by
  intro fuel
  induction fuel with
  | zero => intro start h; omega
  | succ n ih =>
    intro start h
    by_cases hlt : start < ws.length
    · by_cases hend : ws.length ≤ start + csz
      · simp [chunkGo, hlt, hend]
      · have hrec : ws.length - (start + (csz - ov)) < n := by omega
        simp [chunkGo, hlt, hend, Option.isSome_map]
        exact ih (start + (csz - ov)) hrec
    · simp [chunkGo, hlt]

/-- C10: `chunkText` terminates for every input text whenever
`overlap < chunkSize`: the fuelled loop returns a result (never runs out
of the `words.length + 1` iterations the model allots), because each
iteration either reaches the end of the word list or advances the start
cursor by `chunkSize − overlap ≥ 1`. -/
theorem chunkText_terminates (text : String) (csz ov : Nat) (hov : ov < csz) :
    (chunkTextF text csz ov).isSome := by
  unfold chunkTextF
  by_cases h : (splitWords text).length = 0
  · simp [h]
  · simp only [if_neg h]
    exact chunkGo_isSome csz ov (splitWords text) hov _ 0 (by omega)

/-- Witness for C10 at a concrete input. -/
theorem chunkText_terminates_witness :
    (1 : Nat) < 2 ∧ (chunkTextF "alpha beta gamma" 2 1).isSome :=
  ⟨by decide, chunkText_terminates "alpha beta gamma" 2 1 (by decide)⟩

theorem chunk_slice_eq (csz start : Nat) (ws : List String) (h : start < ws.length) :
    (ws.drop start).take (min (start + csz) ws.length - start) = (ws.drop start).take csz := by
  have h1 : min (start + csz) ws.length - start = min csz (ws.length - start) := by omega
  rw [h1, List.take_eq_take]
  simp only [List.length_drop]
  omega

theorem chunkGoW_head (csz ov : Nat) (ws : List String) :
    ∀ fuel start l, chunkGoW csz ov ws fuel start = some l → start < ws.length →
      l.head? = some ((ws.drop start).take csz) := by
  intro fuel start l hsome hlt
  cases fuel with
  | zero => simp [chunkGoW] at hsome
  | succ n =>
    rw [chunkGoW, if_pos hlt] at hsome
    rw [← chunk_slice_eq csz start ws hlt]
    by_cases hend : ws.length ≤ min (start + csz) ws.length
    · rw [if_pos hend] at hsome
      cases hsome
      rfl
    · rw [if_neg hend] at hsome
      rcases Option.map_eq_some'.mp hsome with ⟨rest, _, hl⟩
      subst hl
      rfl

theorem chunkGoW_props (csz ov : Nat) (ws : List String) (hov : ov < csz) :
    ∀ fuel start l, chunkGoW csz ov ws fuel start = some l →
      ((∀ i c, l[i]? = some c → i + 1 < l.length → c.length = csz)
        ∧ (∀ c ∈ l, c.length ≤ csz)
        ∧ (∀ i c c', l[i]? = some c → l[i + 1]? = some c' →
            c.drop (csz - ov) = c'.take ov ∧ (c.drop (csz - ov)).length = ov)) := by
  intro fuel
  induction fuel with
  | zero => intro start l h; simp [chunkGoW] at h
  | succ n ih =>
    intro start l hsome
    by_cases hlt : start < ws.length
    · rw [chunkGoW, if_pos hlt] at hsome
      by_cases hend : ws.length ≤ min (start + csz) ws.length
      · rw [if_pos hend] at hsome
        cases hsome
        refine ⟨?_, ?_, ?_⟩
        · intro i c hc hi
          simp at hi
        · intro c hc
          simp at hc
          subst hc
          calc ((ws.drop start).take (min (start + csz) ws.length - start)).length
              ≤ min (start + csz) ws.length - start := List.length_take_le _ _
            _ ≤ csz := by omega
        · intro i c c' hc hc'
          rcases i with _ | j
          · simp at hc'
          · simp at hc'
      · rw [if_neg hend] at hsome
        rcases Option.map_eq_some'.mp hsome with ⟨rest, hrest, hl⟩
        subst hl
        have hlen : (min (start + csz) ws.length - start) = csz := by omega
        have hchunk : (ws.drop start).take (min (start + csz) ws.length - start)
            = (ws.drop start).take csz := chunk_slice_eq csz start ws hlt
        have hchlen : ((ws.drop start).take csz).length = csz := by
          rw [List.length_take, List.length_drop]
          omega
        rcases ih (start + (csz - ov)) rest hrest with ⟨ihA, ihB, ihC⟩
        refine ⟨?_, ?_, ?_⟩
        · intro i c hc hi
          rcases i with _ | j
          · simp at hc
            rw [← hc, hchunk]
            exact hchlen
          · simp only [List.getElem?_cons_succ] at hc
            simp only [List.length_cons] at hi
            exact ihA j c hc (by omega)
        · intro c hc
          rcases List.mem_cons.mp hc with hc | hc
          · subst hc
            rw [hchunk, hchlen]
          · exact ihB c hc
        · intro i c c' hc hc'
          rcases i with _ | j
          · simp only [List.getElem?_cons_zero, Option.some_inj] at hc
            simp only [List.getElem?_cons_succ] at hc'
            have hstart' : start + (csz - ov) < ws.length := by omega
            have hhead := chunkGoW_head csz ov ws n (start + (csz - ov)) rest hrest hstart'
            have hc'' : c' = (ws.drop (start + (csz - ov))).take csz := by
              rcases rest with _ | ⟨r, rs⟩
              · simp at hc'
              · simp only [List.getElem?_cons_zero, Option.some_inj] at hc'
                simp only [List.head?_cons, Option.some_inj] at hhead
                rw [← hc']
                exact hhead
            subst hc''
            rw [← hc, hchunk]
            have e1 : csz - (csz - ov) = ov := by omega
            have e3 : min ov csz = ov := by omega
            constructor
            · rw [List.drop_take, List.drop_drop, List.take_take]
              rw [e1, e3]
            · rw [List.length_drop, hchlen]
              omega
          · simp only [List.getElem?_cons_succ] at hc hc'
            exact ihC j c c' hc hc'
    · rw [chunkGoW, if_neg hlt] at hsome
      cases hsome
      exact ⟨fun i c hc hi => by simp at hc, fun c hc => by simp at hc,
        fun i c c' hc _ => by simp at hc⟩

/-- C4: `chunkText` with overlap `ov < csz` produces chunks that are the
space-joins of word slices `wcs`, where every non-final slice has exactly
`csz` words, every slice has at most `csz` words (the final one may be
shorter), and consecutive slices share exactly `ov` words: the last `ov`
words of slice `i` are the first `ov` words of slice `i + 1`. -/
theorem chunkText_overlap (text : String) (csz ov : Nat) (hov : ov < csz) :
    ∃ wcs, chunkGoW csz ov (splitWords text) ((splitWords text).length + 1) 0 = some wcs
      ∧ chunkText text csz ov = wcs.map (String.intercalate " ")
      ∧ (∀ i c, wcs[i]? = some c → i + 1 < wcs.length → c.length = csz)
      ∧ (∀ c ∈ wcs, c.length ≤ csz)
      ∧ (∀ i c c', wcs[i]? = some c → wcs[i + 1]? = some c' →
          c.drop (csz - ov) = c'.take ov ∧ (c.drop (csz - ov)).length = ov) := by
  set ws := splitWords text with hws
  have hsome : (chunkGo csz ov ws (ws.length + 1) 0).isSome :=
    chunkGo_isSome csz ov ws hov (ws.length + 1) 0 (by omega)
  rw [chunkGo_eq_map] at hsome
  rcases Option.isSome_iff_exists.mp (by simpa using hsome) with ⟨wcs, hwcs⟩
  refine ⟨wcs, hwcs, ?_, ?_⟩
  · unfold chunkText chunkTextF
    by_cases hempty : ws.length = 0
    · have : ws = [] := List.length_eq_zero.mp hempty
      rw [← hws]
      simp only [hempty, if_pos rfl]
      have : wcs = [] := by
        rw [this] at hwcs
        simp [chunkGoW] at hwcs
        exact hwcs
      simp [this]
    · rw [← hws]
      simp only [if_neg hempty]
      rw [chunkGo_eq_map, hwcs]
      rfl
  · exact chunkGoW_props csz ov ws hov (ws.length + 1) 0 wcs hwcs

/-- Witness for C4 at a concrete input. -/
theorem chunkText_overlap_witness :
    (2 : Nat) < 3 ∧
    ∃ wcs, chunkGoW 3 2 (splitWords "a b c d e") ((splitWords "a b c d e").length + 1) 0 = some wcs
      ∧ chunkText "a b c d e" 3 2 = wcs.map (String.intercalate " ")
      ∧ (∀ i c, wcs[i]? = some c → i + 1 < wcs.length → c.length = 3)
      ∧ (∀ c ∈ wcs, c.length ≤ 3)
      ∧ (∀ i c c', wcs[i]? = some c → wcs[i + 1]? = some c' →
          c.drop (3 - 2) = c'.take 2 ∧ (c.drop (3 - 2)).length = 2) :=
  ⟨by decide, chunkText_overlap "a b c d e" 3 2 (by decide)⟩

/-! ### URL normalizer — `CrawlService.normalizeUrl` (crawl.service.ts)

Source:

```
private normalizeUrl(rawUrl: string): string {
  try {
    const parsed = new URL(rawUrl);
    parsed.hash = '';
    let str = parsed.toString();
    if (str.endsWith('/') && parsed.pathname !== '/') {
      str = str.slice(0, -1);
    }
    return str;
  } catch {
    return rawUrl;
  }
}
```

The WHATWG `new URL` parser is modelled for absolute URLs of shape
`scheme://authority[/path][?query][#fragment]`: the scheme and authority
are lowercased, a missing path serializes as `/`, and the fragment is
kept separate so that `parsed.hash = ''` can drop it.  (Userinfo/port
splitting, default-port elision, percent-encoding and dot-segment
removal are not modelled; inputs outside the modelled shape take the
`catch` branch and are returned unchanged, as the source does for
unparseable input.) -/

/-- A parsed URL, all components in serialization order. -/
structure Url where
  scheme : List Char
  host : List Char
  path : List Char
  query : Option (List Char)
  hash : Option (List Char)
deriving DecidableEq

/-- ASCII lowercasing of one character — the canonicalization `new URL`
applies to scheme and host. -/
def lowerChar (c : Char) : Char :=
  if 65 ≤ c.toNat ∧ c.toNat ≤ 90 then Char.ofNat (c.toNat + 32) else c

/-- Characters allowed in a scheme (modelling `/[a-zA-Z]/`). -/
def isSchemeChar (c : Char) : Bool :=
  decide (65 ≤ c.toNat ∧ c.toNat ≤ 90 ∨ 97 ≤ c.toNat ∧ c.toNat ≤ 122)

/-- Characters that end the authority component. -/
def isHostStop (c : Char) : Bool :=
  c = '/' || c = '?' || c = '#'

/-- Characters that end the path component. -/
def isPathStop (c : Char) : Bool :=
  c = '?' || c = '#'

/-- Splits the fragment marker off the remainder after the query. -/
def afterHash : List Char → Option (List Char)
  | [] => none
  | _ :: hs => some hs

/-- Model of `new URL(rawUrl)` on the characters of the input: `none` is
the thrown `TypeError` of the source's `catch` branch. -/
def parseUrlChars (s : List Char) : Option Url :=
  let sch := s.takeWhile isSchemeChar
  let rest := s.dropWhile isSchemeChar
  if sch = [] then none
  else if rest.take 3 ≠ [':', '/', '/'] then none
  else
    let rest2 := rest.drop 3
    let auth := rest2.takeWhile (fun c => !isHostStop c)
    let rest3 := rest2.dropWhile (fun c => !isHostStop c)
    if auth = [] then none
    else
      let path := rest3.takeWhile (fun c => !isPathStop c)
      let rest4 := rest3.dropWhile (fun c => !isPathStop c)
      let query :=
        if rest4.head? = some '?' then
          some ((rest4.drop 1).takeWhile (fun c => c ≠ '#'))
        else none
      let hash :=
        if rest4.head? = some '?' then afterHash ((rest4.drop 1).dropWhile (fun c => c ≠ '#'))
        else if rest4.head? = some '#' then some (rest4.drop 1)
        else none
      some { scheme := sch.map lowerChar, host := auth.map lowerChar,
             path := if path = [] then ['/'] else path,
             query := query, hash := hash }

/-- Model of `parsed.toString()`: the WHATWG serialization of a parsed
URL. -/
def serializeUrl (u : Url) : List Char :=
  u.scheme ++ [':', '/', '/'] ++ u.host ++ u.path
    ++ (match u.query with | none => [] | some q => '?' :: q)
    ++ (match u.hash with | none => [] | some h => '#' :: h)

/-- `CrawlService.normalizeUrl`: parse, drop the fragment, serialize,
and strip one trailing slash unless the path is just the root. -/
def normalizeUrl (rawUrl : String) : String :=
  match parseUrlChars rawUrl.data with
  | none => rawUrl
  | some p =>
    let p2 := { p with hash := none }
    let str := serializeUrl p2
    if str.getLast? = some '/' ∧ p2.path ≠ ['/'] then String.mk str.dropLast
    else String.mk str

theorem toNat_ofNat_valid (n : Nat) (hv : Nat.isValidChar n) : (Char.ofNat n).toNat = n := by
  unfold Char.ofNat
  rw [dif_pos hv]
  rfl

theorem lowerChar_toNat (c : Char) (h : 65 ≤ c.toNat ∧ c.toNat ≤ 90) :
    (lowerChar c).toNat = c.toNat + 32 := by
  unfold lowerChar
  rw [if_pos h]
  exact toNat_ofNat_valid _ (Or.inl (by omega))

theorem lowerChar_idem (c : Char) : lowerChar (lowerChar c) = lowerChar c := by
  by_cases h : 65 ≤ c.toNat ∧ c.toNat ≤ 90
  · have ht := lowerChar_toNat c h
    unfold lowerChar
    rw [if_neg (by rw [show (if 65 ≤ c.toNat ∧ c.toNat ≤ 90 then Char.ofNat (c.toNat + 32) else c) = lowerChar c from rfl, ht]; omega)]
  · unfold lowerChar
    rw [if_neg h, if_neg h]

theorem ne_of_toNat_ne (a b : Char) (h : a.toNat ≠ b.toNat) : a ≠ b :=
  fun he => h (he ▸ rfl)

theorem lowerChar_schemeChar (c : Char) (h : isSchemeChar c = true) :
    isSchemeChar (lowerChar c) = true := by
  unfold isSchemeChar at h ⊢
  rw [decide_eq_true_eq] at h ⊢
  by_cases hc : 65 ≤ c.toNat ∧ c.toNat ≤ 90
  · rw [lowerChar_toNat c hc]
    omega
  · unfold lowerChar
    rw [if_neg hc]
    omega

theorem lowerChar_hostStop (c : Char) (h : isHostStop c = false) :
    isHostStop (lowerChar c) = false := by
  by_cases hc : 65 ≤ c.toNat ∧ c.toNat ≤ 90
  · have ht := lowerChar_toNat c hc
    unfold isHostStop
    have h1 : lowerChar c ≠ '/' :=
      ne_of_toNat_ne _ _ (by rw [ht, show ('/').toNat = 47 from rfl]; omega)
    have h2 : lowerChar c ≠ '?' :=
      ne_of_toNat_ne _ _ (by rw [ht, show ('?').toNat = 63 from rfl]; omega)
    have h3 : lowerChar c ≠ '#' :=
      ne_of_toNat_ne _ _ (by rw [ht, show ('#').toNat = 35 from rfl]; omega)
    simp [h1, h2, h3]
  · unfold lowerChar
    rw [if_neg hc]
    exact h

/-- Canonical shape of every `parseUrlChars` result: nonempty lowercase
scheme of scheme characters, nonempty lowercase authority free of
stop characters, nonempty path starting with `/` and free of `?`/`#`,
query free of `#`. -/
structure IsCanon (u : Url) : Prop where
  scheme_ne : u.scheme ≠ []
  scheme_ok : ∀ c ∈ u.scheme, isSchemeChar c = true ∧ lowerChar c = c
  host_ne : u.host ≠ []
  host_ok : ∀ c ∈ u.host, isHostStop c = false ∧ lowerChar c = c
  path_ne : u.path ≠ []
  path_head : u.path.head? = some '/'
  path_ok : ∀ c ∈ u.path, isPathStop c = false
  query_ok : ∀ q, u.query = some q → ∀ c ∈ q, c ≠ '#'

theorem takeWhile_append_all {α : Type} (p : α → Bool) (l₁ l₂ : List α)
    (h : ∀ c ∈ l₁, p c = true) : (l₁ ++ l₂).takeWhile p = l₁ ++ l₂.takeWhile p := by
  induction l₁ with
  | nil => simp
  | cons a t ih =>
    have ha : p a = true := h a (List.mem_cons_self a t)
    simp only [List.cons_append, List.takeWhile_cons, ha, if_true]
    rw [ih (fun c hc => h c (List.mem_cons_of_mem a hc))]

theorem dropWhile_append_all {α : Type} (p : α → Bool) (l₁ l₂ : List α)
    (h : ∀ c ∈ l₁, p c = true) : (l₁ ++ l₂).dropWhile p = l₂.dropWhile p := by
  induction l₁ with
  | nil => simp
  | cons a t ih =>
    have ha : p a = true := h a (List.mem_cons_self a t)
    simp only [List.cons_append, List.dropWhile_cons, ha, if_true]
    exact ih (fun c hc => h c (List.mem_cons_of_mem a hc))

theorem takeWhile_all {α : Type} (p : α → Bool) (l : List α)
    (h : ∀ c ∈ l, p c = true) : l.takeWhile p = l := by
  have := takeWhile_append_all p l [] h
  simpa using this

theorem dropWhile_all {α : Type} (p : α → Bool) (l : List α)
    (h : ∀ c ∈ l, p c = true) : l.dropWhile p = [] := by
  have := dropWhile_append_all p l [] h
  simpa using this

theorem map_fixed {α : Type} (f : α → α) (l : List α)
    (h : ∀ c ∈ l, f c = c) : l.map f = l := by
  induction l with
  | nil => rfl
  | cons a t ih =>
    rw [List.map_cons, h a (List.mem_cons_self a t),
      ih (fun c hc => h c (List.mem_cons_of_mem a hc))]

theorem head?_dropWhile_neg {α : Type} (p : α → Bool) (l : List α) (a : α)
    (h : (l.dropWhile p).head? = some a) : p a = false := by
  induction l with
  | nil => simp at h
  | cons b t ih =>
    rw [List.dropWhile_cons] at h
    by_cases hb : p b = true
    · rw [if_pos hb] at h
      exact ih h
    · rw [if_neg hb] at h
      simp only [List.head?_cons, Option.some_inj] at h
      subst h
      exact Bool.eq_false_iff.mpr hb

theorem head?_takeWhile {α : Type} (p : α → Bool) (l : List α)
    (h : l.takeWhile p ≠ []) : (l.takeWhile p).head? = l.head? := by
  cases l with
  | nil => simp at h
  | cons a t =>
    rw [List.takeWhile_cons] at h ⊢
    by_cases ha : p a = true
    · rw [if_pos ha]
      rfl
    · rw [if_neg ha] at h
      exact absurd rfl h

theorem isHostStop_eq (c : Char) (h1 : isHostStop c = true) (h2 : isPathStop c = false) :
    c = '/' := by
  unfold isHostStop at h1
  unfold isPathStop at h2
  simp only [Bool.or_eq_true, decide_eq_true_eq] at h1
  simp only [Bool.or_eq_false_iff, decide_eq_false_iff_not] at h2
  tauto

theorem parse_canon (s : List Char) (u : Url) (h : parseUrlChars s = some u) : IsCanon u := by
  unfold parseUrlChars at h
  dsimp only at h
  by_cases h1 : s.takeWhile isSchemeChar = []
  · rw [if_pos h1] at h
    simp at h
  · rw [if_neg h1] at h
    by_cases h2 : (s.dropWhile isSchemeChar).take 3 ≠ [':', '/', '/']
    · rw [if_pos h2] at h
      simp at h
    · rw [if_neg h2] at h
      by_cases h3 : ((s.dropWhile isSchemeChar).drop 3).takeWhile (fun c => !isHostStop c) = []
      · rw [if_pos h3] at h
        simp at h
      · rw [if_neg h3] at h
        rw [Option.some_inj] at h
        subst h
        set rest3 := ((s.dropWhile isSchemeChar).drop 3).dropWhile (fun c => !isHostStop c)
          with hrest3
        set path := rest3.takeWhile (fun c => !isPathStop c) with hpath
        set rest4 := rest3.dropWhile (fun c => !isPathStop c) with hrest4
        constructor
        · simpa [List.map_eq_nil_iff] using h1
        · intro c hc
          rcases List.mem_map.mp hc with ⟨c0, hc0, rfl⟩
          have hs0 := List.mem_takeWhile_imp hc0
          exact ⟨lowerChar_schemeChar c0 hs0, lowerChar_idem c0⟩
        · simpa [List.map_eq_nil_iff] using h3
        · intro c hc
          rcases List.mem_map.mp hc with ⟨c0, hc0, rfl⟩
          have hs0 := List.mem_takeWhile_imp hc0
          have hs0' : isHostStop c0 = false := by
            simpa using hs0
          exact ⟨lowerChar_hostStop c0 hs0', lowerChar_idem c0⟩
        · by_cases hp : path = []
          · simp [hp]
          · simp [hp]
        · by_cases hp : path = []
          · simp [hp]
          · simp only [if_neg hp]
            rcases hpe : path with _ | ⟨a, t⟩
            · exact absurd hpe hp
            · have hhead : path.head? = some a := by rw [hpe]; rfl
              have hh2 : rest3.head? = some a := by
                rw [← head?_takeWhile (fun c => !isPathStop c) rest3 (by rw [← hpath]; exact hp)]
                rw [← hpath, hpe]
                rfl
              have hstop : (fun c => !isHostStop c) a = false :=
                head?_dropWhile_neg _ _ a hh2
              have hstop' : isHostStop a = true := by
                simpa using hstop
              have hps : isPathStop a = false := by
                have : a ∈ path := by rw [hpe]; exact List.mem_cons_self a t
                have := List.mem_takeWhile_imp (hpath ▸ this)
                simpa using this
              rw [isHostStop_eq a hstop' hps]
              rfl
        · intro c hc
          by_cases hp : path = []
          · rw [if_pos hp] at hc
            simp only [List.mem_singleton] at hc
            subst hc
            rfl
          · rw [if_neg hp] at hc
            have := List.mem_takeWhile_imp hc
            simpa using this
        · intro q hq c hc
          by_cases hq4 : rest4.head? = some '?'
          · rw [if_pos hq4, Option.some_inj] at hq
            subst hq
            have := List.mem_takeWhile_imp hc
            simpa using this
          · rw [if_neg hq4] at hq
            simp at hq

theorem parse_serialize (u : Url) (hu : IsCanon u) (hh : u.hash = none) :
    parseUrlChars (serializeUrl u) = some u := by
  rcases u with ⟨sc, ho, pa, qu, ha⟩
  simp only at hh
  subst hh
  have hsch : ∀ c ∈ sc, isSchemeChar c = true := fun c hc => (hu.scheme_ok c hc).1
  have hhost : ∀ c ∈ ho, (fun c => !isHostStop c) c = true := by
    intro c hc
    simp [(hu.host_ok c hc).1]
  have hpath : ∀ c ∈ pa, (fun c => !isPathStop c) c = true := by
    intro c hc
    simp [hu.path_ok c hc]
  obtain ⟨pt, hpt⟩ : ∃ pt, pa = '/' :: pt := by
    rcases pa with _ | ⟨a, t⟩
    · exact absurd rfl hu.path_ne
    · have := hu.path_head
      simp only [List.head?_cons, Option.some_inj] at this
      exact ⟨t, by rw [this]⟩
  have hscmap : sc.map lowerChar = sc := map_fixed _ _ (fun c hc => (hu.scheme_ok c hc).2)
  have hhomap : ho.map lowerChar = ho := map_fixed _ _ (fun c hc => (hu.host_ok c hc).2)
  rcases qu with _ | q
  · have hs : serializeUrl ⟨sc, ho, pa, none, none⟩
        = sc ++ (':' :: '/' :: '/' :: (ho ++ pa)) := by
      simp [serializeUrl]
    rw [hs]
    unfold parseUrlChars
    dsimp only
    have t1 : (sc ++ (':' :: '/' :: '/' :: (ho ++ pa))).takeWhile isSchemeChar = sc := by
      rw [takeWhile_append_all _ _ _ hsch]
      simp [List.takeWhile_cons, show isSchemeChar ':' = false from by decide]
    have t2 : (sc ++ (':' :: '/' :: '/' :: (ho ++ pa))).dropWhile isSchemeChar
        = ':' :: '/' :: '/' :: (ho ++ pa) := by
      rw [dropWhile_append_all _ _ _ hsch]
      simp [List.dropWhile_cons, show isSchemeChar ':' = false from by decide]
    rw [t1, t2, if_neg hu.scheme_ne]
    simp only [List.take_succ_cons, List.take_zero, List.drop_succ_cons, List.drop_zero]
    rw [if_neg (by simp)]
    have t3 : (ho ++ pa).takeWhile (fun c => !isHostStop c) = ho := by
      rw [takeWhile_append_all _ _ _ hhost, hpt]
      simp [List.takeWhile_cons, show isHostStop '/' = true from by decide]
    have t4 : (ho ++ pa).dropWhile (fun c => !isHostStop c) = pa := by
      rw [dropWhile_append_all _ _ _ hhost, hpt]
      simp [List.dropWhile_cons, show isHostStop '/' = true from by decide]
    rw [t3, t4, if_neg hu.host_ne]
    have t5 : pa.takeWhile (fun c => !isPathStop c) = pa := takeWhile_all _ _ hpath
    have t6 : pa.dropWhile (fun c => !isPathStop c) = [] := dropWhile_all _ _ hpath
    rw [t5, t6, if_neg hu.path_ne]
    simp [hscmap, hhomap]
  · have hq : ∀ c ∈ q, (fun c => decide (c ≠ '#')) c = true := by
      intro c hc
      simp [hu.query_ok q rfl c hc]
    have hs : serializeUrl ⟨sc, ho, pa, some q, none⟩
        = sc ++ (':' :: '/' :: '/' :: (ho ++ (pa ++ '?' :: q))) := by
      simp [serializeUrl]
    rw [hs]
    unfold parseUrlChars
    dsimp only
    have t1 : (sc ++ (':' :: '/' :: '/' :: (ho ++ (pa ++ '?' :: q)))).takeWhile isSchemeChar
        = sc := by
      rw [takeWhile_append_all _ _ _ hsch]
      simp [List.takeWhile_cons, show isSchemeChar ':' = false from by decide]
    have t2 : (sc ++ (':' :: '/' :: '/' :: (ho ++ (pa ++ '?' :: q)))).dropWhile isSchemeChar
        = ':' :: '/' :: '/' :: (ho ++ (pa ++ '?' :: q)) := by
      rw [dropWhile_append_all _ _ _ hsch]
      simp [List.dropWhile_cons, show isSchemeChar ':' = false from by decide]
    rw [t1, t2, if_neg hu.scheme_ne]
    simp only [List.take_succ_cons, List.take_zero, List.drop_succ_cons, List.drop_zero]
    rw [if_neg (by simp)]
    have t3 : (ho ++ (pa ++ '?' :: q)).takeWhile (fun c => !isHostStop c) = ho := by
      rw [takeWhile_append_all _ _ _ hhost, hpt]
      simp [List.takeWhile_cons, show isHostStop '/' = true from by decide]
    have t4 : (ho ++ (pa ++ '?' :: q)).dropWhile (fun c => !isHostStop c) = pa ++ '?' :: q := by
      rw [dropWhile_append_all _ _ _ hhost, hpt]
      simp [List.dropWhile_cons, show isHostStop '/' = true from by decide]
    rw [t3, t4, if_neg hu.host_ne]
    have t5 : (pa ++ '?' :: q).takeWhile (fun c => !isPathStop c) = pa := by
      rw [takeWhile_append_all _ _ _ hpath]
      simp [List.takeWhile_cons, show isPathStop '?' = true from by decide]
    have t6 : (pa ++ '?' :: q).dropWhile (fun c => !isPathStop c) = '?' :: q := by
      rw [dropWhile_append_all _ _ _ hpath]
      simp [List.dropWhile_cons, show isPathStop '?' = true from by decide]
    rw [t5, t6, if_neg hu.path_ne]
    have t7 : q.takeWhile (fun c => decide (c ≠ '#')) = q := takeWhile_all _ _ hq
    have t8 : q.dropWhile (fun c => decide (c ≠ '#')) = [] := dropWhile_all _ _ hq
    have hfun : (fun c : Char => !decide (c = '#')) = (fun c : Char => decide (c ≠ '#')) := by
      funext c
      by_cases hc : c = '#' <;> simp [hc]
    have t8' : q.dropWhile (fun c => !decide (c = '#')) = [] := by
      rw [hfun]
      exact t8
    have hq' : ∀ x ∈ q, ¬ x = '#' := fun c hc => hu.query_ok q rfl c hc
    simp [hscmap, hhomap, t7, t8', afterHash, hq']
    exact hq'

/-- Does the serialization end in two consecutive slashes?  On such
inputs each `normalizeUrl` application removes only one slash. -/
def twoSlashEnd (l : List Char) : Bool :=
  decide (l.getLast? = some '/') && decide (l.dropLast.getLast? = some '/')

/-- Idempotence precondition for `normalizeUrl`: the fragment-stripped
serialization of the input does not end in `//` (unparseable inputs are
unconstrained). -/
def noTrailingDoubleSlash (u : String) : Bool :=
  match parseUrlChars u.data with
  | none => true
  | some p => !twoSlashEnd (serializeUrl { p with hash := none })

theorem serialize_none_shape (sc ho pa : List Char) :
    serializeUrl ⟨sc, ho, pa, none, none⟩ = ((sc ++ [':', '/', '/']) ++ ho) ++ pa := by
  simp [serializeUrl]

theorem serialize_some_shape (sc ho pa q : List Char) :
    serializeUrl ⟨sc, ho, pa, some q, none⟩ = (((sc ++ [':', '/', '/']) ++ ho) ++ pa) ++ '?' :: q := by
  simp [serializeUrl]

theorem strip_query_none (sc ho pa : List Char) (hc : IsCanon ⟨sc, ho, pa, none, none⟩)
    (hne : pa ≠ ['/'])
    (hlast : (serializeUrl ⟨sc, ho, pa, none, none⟩).getLast? = some '/') :
    pa.getLast? = some '/'
    ∧ (serializeUrl ⟨sc, ho, pa, none, none⟩).dropLast
        = serializeUrl ⟨sc, ho, pa.dropLast, none, none⟩
    ∧ IsCanon ⟨sc, ho, pa.dropLast, none, none⟩ := by
  have hpane : pa ≠ [] := hc.path_ne
  rw [serialize_none_shape, List.getLast?_append_of_ne_nil _ hpane] at hlast
  obtain ⟨pt, hpt⟩ : ∃ pt, pa = '/' :: pt := by
    rcases pa with _ | ⟨a, t⟩
    · exact absurd rfl hpane
    · have := hc.path_head
      simp only [List.head?_cons, Option.some_inj] at this
      exact ⟨t, by rw [this]⟩
  have hptne : pt ≠ [] := by
    intro h
    rw [h] at hpt
    exact hne hpt
  have hdl : pa.dropLast = '/' :: pt.dropLast := by
    rw [hpt]
    exact List.dropLast_cons_of_ne_nil hptne
  have hdlne : pa.dropLast ≠ [] := by
    rw [hdl]
    exact List.cons_ne_nil _ _
  refine ⟨hlast, ?_, ?_⟩
  · rw [serialize_none_shape, serialize_none_shape]
    exact List.dropLast_append_of_ne_nil _ hpane
  · exact
      { scheme_ne := hc.scheme_ne
        scheme_ok := hc.scheme_ok
        host_ne := hc.host_ne
        host_ok := hc.host_ok
        path_ne := hdlne
        path_head := by rw [hdl]; rfl
        path_ok := fun c hcc => hc.path_ok c ((List.dropLast_sublist pa).subset hcc)
        query_ok := fun q hq => by simp at hq }

theorem strip_query_some (sc ho pa q : List Char) (hc : IsCanon ⟨sc, ho, pa, some q, none⟩)
    (hlast : (serializeUrl ⟨sc, ho, pa, some q, none⟩).getLast? = some '/') :
    q ≠ []
    ∧ (serializeUrl ⟨sc, ho, pa, some q, none⟩).dropLast
        = serializeUrl ⟨sc, ho, pa, some q.dropLast, none⟩
    ∧ IsCanon ⟨sc, ho, pa, some q.dropLast, none⟩ := by
  rw [serialize_some_shape, List.getLast?_append_of_ne_nil _ (List.cons_ne_nil '?' q)] at hlast
  have hqne : q ≠ [] := by
    intro h
    rw [h] at hlast
    simp at hlast
  refine ⟨hqne, ?_, ?_⟩
  · rw [serialize_some_shape, serialize_some_shape,
      List.dropLast_append_of_ne_nil _ (List.cons_ne_nil '?' q),
      List.dropLast_cons_of_ne_nil hqne]
  · exact
      { scheme_ne := hc.scheme_ne
        scheme_ok := hc.scheme_ok
        host_ne := hc.host_ne
        host_ok := hc.host_ok
        path_ne := hc.path_ne
        path_head := hc.path_head
        path_ok := hc.path_ok
        query_ok := fun q' hq' c hcc => by
          simp only [Option.some_inj] at hq'
          subst hq'
          exact hc.query_ok q rfl c ((List.dropLast_sublist q).subset hcc) }

theorem data_mk (l : List Char) : (String.mk l).data = l := rfl

theorem normalizeUrl_unfold (u : String) (sc ho pa : List Char) (qu ha : Option (List Char))
    (hp : parseUrlChars u.data = some ⟨sc, ho, pa, qu, ha⟩) :
    normalizeUrl u
      = if (serializeUrl ⟨sc, ho, pa, qu, none⟩).getLast? = some '/' ∧ pa ≠ ['/'] then
          String.mk (serializeUrl ⟨sc, ho, pa, qu, none⟩).dropLast
        else String.mk (serializeUrl ⟨sc, ho, pa, qu, none⟩) := by
  unfold normalizeUrl
  rw [hp]

/-- C3 (amended): `normalizeUrl` is idempotent on every input whose
fragment-stripped serialization does not end in two consecutive slashes,
and it never adds a trailing slash: when the parsed path does not end in
`/`, the normalized output parses back with the identical path. -/
theorem normalizeUrl_props (u : String) :
    (noTrailingDoubleSlash u = true → normalizeUrl (normalizeUrl u) = normalizeUrl u)
    ∧ (∀ p, parseUrlChars u.data = some p → p.path.getLast? ≠ some '/' →
        ∃ p', parseUrlChars (normalizeUrl u).data = some p' ∧ p'.path = p.path) := by
  cases hp : parseUrlChars u.data with
  | none =>
    have h1 : normalizeUrl u = u := by
      unfold normalizeUrl
      rw [hp]
    constructor
    · intro _
      rw [h1, h1]
    · intro p hpp
      simp at hpp
  | some p =>
    have hcp : IsCanon p := parse_canon _ _ hp
    rcases p with ⟨sc, ho, pa, qu, ha⟩
    have hc2 : IsCanon ⟨sc, ho, pa, qu, none⟩ :=
      { scheme_ne := hcp.scheme_ne
        scheme_ok := hcp.scheme_ok
        host_ne := hcp.host_ne
        host_ok := hcp.host_ok
        path_ne := hcp.path_ne
        path_head := hcp.path_head
        path_ok := hcp.path_ok
        query_ok := fun q hq => hcp.query_ok q hq }
    have hnu := normalizeUrl_unfold u sc ho pa qu ha hp
    by_cases hcond : (serializeUrl ⟨sc, ho, pa, qu, none⟩).getLast? = some '/' ∧ pa ≠ ['/']
    · rcases hcond with ⟨hlast, hpane⟩
      have hnd' : noTrailingDoubleSlash u = true →
          (serializeUrl ⟨sc, ho, pa, qu, none⟩).dropLast.getLast? ≠ some '/' := by
        intro hnd
        unfold noTrailingDoubleSlash at hnd
        rw [hp] at hnd
        have : twoSlashEnd (serializeUrl ⟨sc, ho, pa, qu, none⟩) = false := by
          simpa using hnd
        unfold twoSlashEnd at this
        rw [Bool.and_eq_false_iff] at this
        rcases this with h | h
        · rw [decide_eq_false_iff_not] at h
          exact absurd hlast h
        · rwa [decide_eq_false_iff_not] at h
      rcases qu with _ | q
      · obtain ⟨hpl, hdrop, hcanon'⟩ := strip_query_none sc ho pa hc2 hpane hlast
        have hnu' : normalizeUrl u = String.mk (serializeUrl ⟨sc, ho, pa, none, none⟩).dropLast := by
          rw [hnu, if_pos ⟨hlast, hpane⟩]
        have hps : parseUrlChars (normalizeUrl u).data
            = some ⟨sc, ho, pa.dropLast, none, none⟩ := by
          rw [hnu', data_mk, hdrop]
          exact parse_serialize _ hcanon' rfl
        constructor
        · intro hnd
          have hgl := hnd' hnd
          have h2 := normalizeUrl_unfold (normalizeUrl u) sc ho pa.dropLast none none hps
          rw [h2, if_neg, hnu', hdrop]
          intro hcc
          rw [← hdrop] at hcc
          exact hgl hcc.1
        · intro p hpp hsl
          rw [Option.some_inj] at hpp
          subst hpp
          exact absurd hpl hsl
      · obtain ⟨hqne, hdrop, hcanon'⟩ := strip_query_some sc ho pa q hc2 hlast
        have hnu' : normalizeUrl u
            = String.mk (serializeUrl ⟨sc, ho, pa, some q, none⟩).dropLast := by
          rw [hnu, if_pos ⟨hlast, hpane⟩]
        have hps : parseUrlChars (normalizeUrl u).data
            = some ⟨sc, ho, pa, some q.dropLast, none⟩ := by
          rw [hnu', data_mk, hdrop]
          exact parse_serialize _ hcanon' rfl
        constructor
        · intro hnd
          have hgl := hnd' hnd
          have h2 := normalizeUrl_unfold (normalizeUrl u) sc ho pa (some q.dropLast) none hps
          rw [h2, if_neg, hnu', hdrop]
          intro hcc
          rw [← hdrop] at hcc
          exact hgl hcc.1
        · intro p hpp hsl
          rw [Option.some_inj] at hpp
          subst hpp
          exact ⟨⟨sc, ho, pa, some q.dropLast, none⟩, hps, rfl⟩
    · have hnu' : normalizeUrl u = String.mk (serializeUrl ⟨sc, ho, pa, qu, none⟩) := by
        rw [hnu, if_neg hcond]
      have hps : parseUrlChars (normalizeUrl u).data = some ⟨sc, ho, pa, qu, none⟩ := by
        rw [hnu', data_mk]
        exact parse_serialize _ hc2 rfl
      constructor
      · intro _
        have h2 := normalizeUrl_unfold (normalizeUrl u) sc ho pa qu none hps
        rw [h2, if_neg hcond, hnu']
      · intro p hpp hsl
        rw [Option.some_inj] at hpp
        subst hpp
        exact ⟨⟨sc, ho, pa, qu, none⟩, hps, rfl⟩

/-- C3 counterexample: the claimed idempotence fails — a path ending in
`//` loses one slash per application, so normalizing twice differs from
normalizing once. -/
theorem normalizeUrl_not_idempotent :
    normalizeUrl (normalizeUrl "https://example.com/a//")
      ≠ normalizeUrl "https://example.com/a//" := by
  decide

/-- Witness for C3's amended theorem at concrete inputs. -/
theorem normalizeUrl_props_witness :
    noTrailingDoubleSlash "https://example.com/a/" = true
    ∧ normalizeUrl (normalizeUrl "https://example.com/a/") = normalizeUrl "https://example.com/a/"
    ∧ (∃ p', parseUrlChars (normalizeUrl "https://example.com/b").data = some p'
        ∧ p'.path = "/b".data) :=
  ⟨by decide, (normalizeUrl_props "https://example.com/a/").1 (by decide),
    (normalizeUrl_props "https://example.com/b").2
      ⟨"https".data, "example.com".data, "/b".data, none, none⟩ (by decide) (by decide)⟩

/-! ### RAG service — `RagService` (rag.service.ts)

`EmbeddingService.search` returns rows ordered by cosine distance with
`LIMIT topK`; `RagService.retrieveContext` then filters by
`r.score > 0.3`.  Scores (JavaScript numbers at the relevant magnitudes)
are modelled as rationals. -/

/-- One row of `EmbeddingService.search` output (`metadata` omitted as
irrelevant to the claims). -/
structure RetrievedContext where
  content : String
  score : ℚ
deriving DecidableEq

/-- `RagService`'s result record. -/
structure RagResult where
  augmentedPrompt : String
  contexts : List RetrievedContext
deriving DecidableEq

/-- Model of `EmbeddingService.search` over the tenant's stored rows:
order by score descending (cosine-distance ascending) and take `topK`. -/
def search (rows : List RetrievedContext) (topK : Nat := 5) : List RetrievedContext :=
  (rows.insertionSort (fun a b => b.score ≤ a.score)).take topK

/-- `RagService.retrieveContext` applied to the search results: keep the
rows with `score > 0.3`, in order. -/
def retrieveContext (results : List RetrievedContext) : List RetrievedContext :=
  results.filter (fun r => decide ((3 : ℚ)/10 < r.score))

/-- Model of `systemPrompt || ''` (JavaScript: `null`/`undefined`/`""`
are falsy and yield `''`; a nonempty string yields itself). -/
def jsOrEmpty (s : Option String) : String :=
  match s with
  | none => ""
  | some s => s

/-- `RagService.buildAugmentedPrompt`. -/
def buildAugmentedPrompt (systemPrompt : Option String)
    (contexts : List RetrievedContext) : RagResult :=
  if contexts = [] then
    { augmentedPrompt := jsOrEmpty systemPrompt, contexts := [] }
  else
    let contextBlock := String.intercalate "\n\n"
      (contexts.enum.map (fun p => "[Source " ++ toString (p.1 + 1) ++ "] " ++ p.2.content))
    let ragPrefix := String.intercalate "\n"
      ["Use the following knowledge base context to answer the user\x27s question.",
       "If the context is relevant, incorporate it into your response.",
       "If the context is not relevant to the question, rely on your general knowledge.",
       "When using information from the context, be accurate and helpful.",
       "",
       "--- Knowledge Base Context ---",
       contextBlock,
       "--- End Context ---",
       ""]
    let base := jsOrEmpty systemPrompt
    let augmentedPrompt := if base = "" then ragPrefix else ragPrefix ++ "\n" ++ base
    { augmentedPrompt := augmentedPrompt, contexts := contexts }

/-- `RagService.augment` (a.k.a. `retrieveAndAugment`): search the
tenant's rows, filter by the relevance floor, then build the prompt. -/
def augment (rows : List RetrievedContext) (systemPrompt : Option String)
    (topK : Nat := 5) : RagResult :=
  buildAugmentedPrompt systemPrompt (retrieveContext (search rows topK))

/-- C5: `retrieveContext` returns exactly the search results whose score
strictly exceeds 3/10, preserving their order (a sublist of the input);
concretely a 0.29-scored result is dropped, a 0.31-scored one kept, and
a result at exactly 0.3 is filtered out. -/
theorem retrieveContext_threshold (results : List RetrievedContext) :
    (retrieveContext results).Sublist results
    ∧ (∀ r, r ∈ retrieveContext results ↔ r ∈ results ∧ (3 : ℚ)/10 < r.score)
    ∧ retrieveContext [⟨"low", 29/100⟩, ⟨"mid", 3/10⟩, ⟨"high", 31/100⟩]
        = [⟨"high", 31/100⟩] := by
  refine ⟨List.filter_sublist _, ?_, ?_⟩
  · intro r
    simp [retrieveContext, List.mem_filter]
  · have h1 : ¬ ((3:ℚ)/10 < 29/100) := by norm_num
    have h2 : ((3:ℚ)/10 < 31/100) := by norm_num
    have h3 : ¬ ((3:ℚ)/10 < 3/10) := lt_irrefl _
    simp [retrieveContext, List.filter_cons, h1, h2, h3]

/-- C9: with an empty retrieved-context list, `buildAugmentedPrompt`
returns the base prompt unchanged (empty for an absent one) with no
contexts, and consequently `augment` over a tenant with no stored rows
returns the base prompt unchanged and an empty contexts list. -/
theorem buildAugmentedPrompt_empty (sp : Option String) (topK : Nat) :
    buildAugmentedPrompt sp [] = { augmentedPrompt := jsOrEmpty sp, contexts := [] }
    ∧ (∀ s, buildAugmentedPrompt (some s) [] = { augmentedPrompt := s, contexts := [] })
    ∧ augment [] sp topK = { augmentedPrompt := jsOrEmpty sp, contexts := [] } := by
  refine ⟨rfl, fun s => rfl, ?_⟩
  simp [augment, search, retrieveContext, buildAugmentedPrompt, List.insertionSort]

/-! ### Training worker — `TrainingWorker` (training.worker.ts) -/

/-- Training status of a source record. -/
inductive TrainingStatus
  | PENDING
  | PROCESSING
  | TRAINED
  | FAILED
deriving DecidableEq

/-- A Q&A pair source record. -/
structure QnaPair where
  question : String
  answer : String
deriving DecidableEq

/-- A free-text training source record. -/
structure TextTraining where
  content : String
deriving DecidableEq

/-- The columns of a crawled page the worker reads: `storagePath` holds
the extracted text content (`null` on failed fetches). -/
structure CrawledPageRow where
  storagePath : Option String
deriving DecidableEq

/-- Observable effects of one training-job execution: whether the
handler threw, the training-status values written to the source record
(in order), and the embedding contents stored. -/
structure TrainOutcome where
  threw : Bool
  statusLog : List TrainingStatus
  stored : List String
deriving DecidableEq

/-- Model of `EmbeddingService.storeEmbeddings`: chunk every text with
the default parameters and persist each chunk's content (the OpenAI
embedding call and pgvector insert are abstracted as succeeding; the
rows' `content` column is what the model records). -/
def storeEmbeddings (texts : List String) : List String :=
  (texts.map (fun t => chunkText t)).flatten

/-- `TrainingWorker.processQna`: a missing pair is skipped silently;
otherwise mark PROCESSING, store embeddings of
`"Question: {q}\nAnswer: {a}"`, and mark TRAINED. -/
def processQna (qna : Option QnaPair) : TrainOutcome :=
  match qna with
  | none => { threw := false, statusLog := [], stored := [] }
  | some q =>
    let combinedText := "Question: " ++ q.question ++ "\nAnswer: " ++ q.answer
    { threw := false,
      statusLog := [TrainingStatus.PROCESSING, TrainingStatus.TRAINED],
      stored := storeEmbeddings [combinedText] }

/-- `TrainingWorker.processText`: same pattern over the full free-text
content. -/
def processText (t : Option TextTraining) : TrainOutcome :=
  match t with
  | none => { threw := false, statusLog := [], stored := [] }
  | some tt =>
    { threw := false,
      statusLog := [TrainingStatus.PROCESSING, TrainingStatus.TRAINED],
      stored := storeEmbeddings [tt.content] }

/-- `TrainingWorker.processCrawlPage`: a missing page, or one whose
content is `null` or empty (JavaScript `!content`), is skipped silently;
pages carry no training-status field, so nothing is written either way. -/
def processCrawlPage (page : Option CrawledPageRow) : TrainOutcome :=
  match page with
  | none => { threw := false, statusLog := [], stored := [] }
  | some p =>
    match p.storagePath with
    | none => { threw := false, statusLog := [], stored := [] }
    | some content =>
      if content = "" then { threw := false, statusLog := [], stored := [] }
      else { threw := false, statusLog := [], stored := storeEmbeddings [content] }

theorem chunkTextF_single (text : String) (csz ov : Nat)
    (h1 : splitWords text ≠ []) (h2 : (splitWords text).length ≤ csz) :
    chunkTextF text csz ov = some [String.intercalate " " (splitWords text)] := by
  have hlen : (splitWords text).length ≠ 0 := by
    simpa [List.length_eq_zero] using h1
  unfold chunkTextF
  simp only [if_neg hlen]
  rw [chunkGo]
  have hlt : 0 < (splitWords text).length := Nat.pos_of_ne_zero hlen
  have he : min (0 + csz) (splitWords text).length = (splitWords text).length := by omega
  have hmin : min csz (splitWords text).length = (splitWords text).length := by omega
  simp [hlt, he, h2, hmin, List.take_length]

/-- C7 counterexample: the stored chunk for the concrete Q&A pair is not
the raw combined string — `chunkText` joins the words with single
spaces, so the newline between question and answer does not survive. -/
theorem processQna_stored_not_raw_combined :
    (processQna (some ⟨"Return policy?", "30 days."⟩)).stored
      ≠ ["Question: Return policy?\nAnswer: 30 days."] := by
  decide

/-- C7 (amended): training a Q&A pair whose combined text fits in one
chunk (a nonempty word sequence of at most 500 words) stores exactly one
embedding record whose content is the space-joined word sequence of
`"Question: {q}\nAnswer: {a}"` (the newline, like every internal
whitespace run, collapses to a single space), and the final training
status written is TRAINED; for the concrete pair the single stored chunk
is `"Question: Return policy? Answer: 30 days."`. -/
theorem processQna_single_chunk (q a : String)
    (h1 : splitWords ("Question: " ++ q ++ "\nAnswer: " ++ a) ≠ [])
    (h2 : (splitWords ("Question: " ++ q ++ "\nAnswer: " ++ a)).length ≤ 500) :
    (processQna (some ⟨q, a⟩)).stored
        = [String.intercalate " " (splitWords ("Question: " ++ q ++ "\nAnswer: " ++ a))]
    ∧ (processQna (some ⟨q, a⟩)).statusLog.getLast? = some TrainingStatus.TRAINED
    ∧ (processQna (some ⟨"Return policy?", "30 days."⟩)).stored
        = ["Question: Return policy? Answer: 30 days."] := by
  refine ⟨?_, rfl, by decide⟩
  simp [processQna, storeEmbeddings, chunkText,
    chunkTextF_single ("Question: " ++ q ++ "\nAnswer: " ++ a) 500 50 h1 h2]

/-- Witness for C7's amended theorem at the concrete pair. -/
theorem processQna_single_chunk_witness :
    splitWords ("Question: " ++ "Return policy?" ++ "\nAnswer: " ++ "30 days.") ≠ []
    ∧ (splitWords ("Question: " ++ "Return policy?" ++ "\nAnswer: " ++ "30 days.")).length ≤ 500
    ∧ (processQna (some ⟨"Return policy?", "30 days."⟩)).stored
        = [String.intercalate " "
            (splitWords ("Question: " ++ "Return policy?" ++ "\nAnswer: " ++ "30 days."))] :=
  ⟨by decide, by decide,
    (processQna_single_chunk "Return policy?" "30 days." (by decide) (by decide)).1⟩

/-- Training job types dispatched by `TrainingWorker.process`. -/
inductive TrainingJobType
  | qna
  | text
  | crawlPage
deriving DecidableEq

/-- `TrainingWorker.process`: dispatch on the job type; the `catch`
block appends a FAILED status write (`markFailed`) and re-throws only
when the branch threw. -/
def processTrainingJob (ty : TrainingJobType) (qna : Option QnaPair)
    (t : Option TextTraining) (page : Option CrawledPageRow) : TrainOutcome :=
  let r := match ty with
    | TrainingJobType.qna => processQna qna
    | TrainingJobType.text => processText t
    | TrainingJobType.crawlPage => processCrawlPage page
  if r.threw then { r with statusLog := r.statusLog ++ [TrainingStatus.FAILED] } else r

/-- C8: a training job whose source record is missing — or a crawled
page with no extracted text — returns normally: no error is raised, no
FAILED status is written, and no embeddings are stored. -/
theorem trainingWorker_missing_source_skips (pg : CrawledPageRow)
    (hpg : pg.storagePath = none ∨ pg.storagePath = some "") :
    processTrainingJob TrainingJobType.qna none none none = ⟨false, [], []⟩
    ∧ processTrainingJob TrainingJobType.text none none none = ⟨false, [], []⟩
    ∧ processTrainingJob TrainingJobType.crawlPage none none none = ⟨false, [], []⟩
    ∧ processTrainingJob TrainingJobType.crawlPage none none (some pg) = ⟨false, [], []⟩ := by
  refine ⟨rfl, rfl, rfl, ?_⟩
  rcases hpg with h | h <;>
    simp [processTrainingJob, processCrawlPage, h]

/-- Witness for C8 at a concrete page row. -/
theorem trainingWorker_missing_source_skips_witness :
    (CrawledPageRow.mk none).storagePath = none ∧
    processTrainingJob TrainingJobType.crawlPage none none (some ⟨none⟩) = ⟨false, [], []⟩ :=
  ⟨rfl, (trainingWorker_missing_source_skips ⟨none⟩ (Or.inl rfl)).2.2.2⟩

/-! ### Crawl service — `CrawlService` (crawl.service.ts)

`cancelJob` and the worker-driven `processCrawlJob` traversal.  The
Prisma store is explicit state: `CrawlState.jobStatus` is the durable
`CrawlJob.status` column, `pages` the `crawledPage` rows.  The HTTP
fetch plus cheerio extraction is an oracle `fetch : String →
FetchOutcome` whose `page` case carries the extracted text and the
same-origin http(s) hash-stripped resolved `<a href>` targets the
source's link-extraction block computes.  A concurrent external
`cancelJob` write is a schedule `ext : Nat → Bool`: `ext t` says the
durable status is set CANCELLED before iteration `t`. -/

/-- Crawl job status column (`CrawlStatus` enum). -/
inductive CrawlStatus
  | QUEUED
  | PROCESSING
  | COMPLETED
  | FAILED
  | CANCELLED
deriving DecidableEq

/-- The columns of a crawl job the service reads and writes. -/
structure CrawlJob where
  url : String
  maxDepth : Int
  confirmedLimit : Option Nat
  status : CrawlStatus
deriving DecidableEq

/-- Errors thrown by `CrawlService.cancelJob`. -/
inductive CancelError
  | notFound
  | invalidState
deriving DecidableEq

/-- `CrawlService.cancelJob`: reject a missing job, reject COMPLETED or
CANCELLED jobs with an invalid-state error (no update is written), and
otherwise write status CANCELLED. -/
def cancelJob (job : Option CrawlJob) : Except CancelError CrawlJob :=
  match job with
  | none => Except.error CancelError.notFound
  | some j =>
    if j.status = CrawlStatus.COMPLETED ∨ j.status = CrawlStatus.CANCELLED then
      Except.error CancelError.invalidState
    else Except.ok { j with status := CrawlStatus.CANCELLED }

/-- Outcome of fetching one URL (§4.2): transport/HTTP failure, a
non-HTML content type, an empty extracted text, or a page with text and
discovered links. -/
inductive FetchOutcome
  | failure
  | nonHtml
  | empty
  | page (text : String) (links : List String)
deriving DecidableEq

/-- The traversal's mutable state plus the durable rows it writes.
`fetchLog` instruments the model: one entry per `fetch` call, with the
depth of the queue item that triggered it. -/
structure CrawlState where
  queue : List (String × Nat)
  visited : List String
  pagesFound : Nat
  pagesCrawled : Nat
  pagesFailed : Nat
  jobStatus : CrawlStatus
  pages : List (String × Bool)
  fetchLog : List (String × Nat)
deriving DecidableEq

/-- Model of `const maxDepth = job.maxDepth === -1 ? Infinity :
job.maxDepth` combined with `item.depth < maxDepth`. -/
def depthOk (maxDepth : Int) (d : Nat) : Bool :=
  decide (maxDepth = -1) || decide ((d : Int) < maxDepth)

/-- One iteration's work on the popped item, parameterized by the fetch
outcome `f` of its normalized URL: pop the queue, mark visited, count it
found, log the fetch; then record failure, skip, or record success and
enqueue the unseen links when the depth guard and page limit allow. -/
def crawlStep (limit : Nat) (maxDepth : Int) (item : String × Nat) (f : FetchOutcome)
    (st : CrawlState) : CrawlState :=
  let nurl := normalizeUrl item.1
  let st1 :=
    { st with
      queue := st.queue.tail
      visited := nurl :: st.visited
      pagesFound := st.pagesFound + 1
      fetchLog := (nurl, item.2) :: st.fetchLog }
  match f with
  | FetchOutcome.failure =>
    { st1 with
      pagesFailed := st1.pagesFailed + 1
      pages := (nurl, false) :: st1.pages }
  | FetchOutcome.nonHtml => st1
  | FetchOutcome.empty => st1
  | FetchOutcome.page _ links =>
    let st2 :=
      { st1 with
        pages := (nurl, true) :: st1.pages
        pagesCrawled := st1.pagesCrawled + 1 }
    if depthOk maxDepth item.2 ∧ st2.pagesCrawled < limit then
      { st2 with
        queue := st2.queue ++
          (links.filter (fun l => normalizeUrl l ∉ st2.visited)).map
            (fun l => (l, item.2 + 1)) }
    else st2

/-- A concurrent external `cancelJob` write landing (or not) before an
iteration. -/
def applyExt (ext : Nat → Bool) (t : Nat) (st : CrawlState) : CrawlState :=
  if ext t then { st with jobStatus := CrawlStatus.CANCELLED } else st

/-- The `while` loop of `processCrawlJob`.  `fuel` bounds iterations
(enough fuel reproduces the source loop exactly; the boundedness
invariants below hold for every fuel); `t` counts iterations to index
the external-cancellation schedule.  The `headD` default is never used:
the loop guard guarantees a nonempty queue. -/
def crawlLoop (fetch : String → FetchOutcome) (ext : Nat → Bool) (limit : Nat)
    (maxDepth : Int) : Nat → Nat → CrawlState → CrawlState
  | 0, _, st => st
  | fuel + 1, t, st0 =>
    let st := applyExt ext t st0
    if st.queue = [] ∨ ¬ st.pagesCrawled < limit then st
    else if 0 < st.pagesCrawled ∧ st.pagesCrawled % 10 = 0
        ∧ st.jobStatus = CrawlStatus.CANCELLED then st
    else if normalizeUrl (st.queue.headD ("", 0)).1 ∈ st.visited then
      crawlLoop fetch ext limit maxDepth fuel (t + 1) { st with queue := st.queue.tail }
    else
      crawlLoop fetch ext limit maxDepth fuel (t + 1)
        (crawlStep limit maxDepth (st.queue.headD ("", 0))
          (fetch (normalizeUrl (st.queue.headD ("", 0)).1)) st)

/-- `CrawlService.processCrawlJob`: skip an already-CANCELLED job; else
set PROCESSING, run the traversal from the seed at depth 0, and finally
write status COMPLETED with the final counters.  (The `catch` branch
writing FAILED fires only on store/internal errors, which the model's
explicit store cannot raise.) -/
def processCrawlJob (fetch : String → FetchOutcome) (ext : Nat → Bool) (job : CrawlJob)
    (fuel : Nat) : CrawlState :=
  if job.status = CrawlStatus.CANCELLED then
    { queue := [], visited := [], pagesFound := 0, pagesCrawled := 0, pagesFailed := 0,
      jobStatus := job.status, pages := [], fetchLog := [] }
  else
    let limit := job.confirmedLimit.getD 50
    let st0 : CrawlState :=
      { queue := [(job.url, 0)], visited := [], pagesFound := 0, pagesCrawled := 0,
        pagesFailed := 0, jobStatus := CrawlStatus.PROCESSING, pages := [], fetchLog := [] }
    let fin := crawlLoop fetch ext limit job.maxDepth fuel 0 st0
    { fin with jobStatus := CrawlStatus.COMPLETED }

/-- Boundedness invariant for C2: the crawled counter respects the page
limit, and every queued or fetched item sits at depth at most `D`. -/
def CrawlInv (limit D : Nat) (st : CrawlState) : Prop :=
  st.pagesCrawled ≤ limit ∧ (∀ p ∈ st.queue, p.2 ≤ D) ∧ (∀ p ∈ st.fetchLog, p.2 ≤ D)


theorem crawlStep_failure (limit : Nat) (maxDepth : Int) (item : String × Nat)
    (st : CrawlState) :
    crawlStep limit maxDepth item FetchOutcome.failure st
      = { st with
          queue := st.queue.tail
          visited := normalizeUrl item.1 :: st.visited
          pagesFound := st.pagesFound + 1
          fetchLog := (normalizeUrl item.1, item.2) :: st.fetchLog
          pagesFailed := st.pagesFailed + 1
          pages := (normalizeUrl item.1, false) :: st.pages } := rfl

theorem crawlStep_nonHtml (limit : Nat) (maxDepth : Int) (item : String × Nat)
    (st : CrawlState) :
    crawlStep limit maxDepth item FetchOutcome.nonHtml st
      = { st with
          queue := st.queue.tail
          visited := normalizeUrl item.1 :: st.visited
          pagesFound := st.pagesFound + 1
          fetchLog := (normalizeUrl item.1, item.2) :: st.fetchLog } := rfl

theorem crawlStep_empty (limit : Nat) (maxDepth : Int) (item : String × Nat)
    (st : CrawlState) :
    crawlStep limit maxDepth item FetchOutcome.empty st
      = { st with
          queue := st.queue.tail
          visited := normalizeUrl item.1 :: st.visited
          pagesFound := st.pagesFound + 1
          fetchLog := (normalizeUrl item.1, item.2) :: st.fetchLog } := rfl

theorem crawlStep_page (limit : Nat) (maxDepth : Int) (item : String × Nat)
    (text : String) (links : List String) (st : CrawlState) :
    crawlStep limit maxDepth item (FetchOutcome.page text links) st
      = (if depthOk maxDepth item.2 ∧ st.pagesCrawled + 1 < limit then
          { st with
            queue := st.queue.tail ++
              (links.filter (fun l => normalizeUrl l ∉ normalizeUrl item.1 :: st.visited)).map
                (fun l => (l, item.2 + 1))
            visited := normalizeUrl item.1 :: st.visited
            pagesFound := st.pagesFound + 1
            fetchLog := (normalizeUrl item.1, item.2) :: st.fetchLog
            pages := (normalizeUrl item.1, true) :: st.pages
            pagesCrawled := st.pagesCrawled + 1 }
        else
          { st with
            queue := st.queue.tail
            visited := normalizeUrl item.1 :: st.visited
            pagesFound := st.pagesFound + 1
            fetchLog := (normalizeUrl item.1, item.2) :: st.fetchLog
            pages := (normalizeUrl item.1, true) :: st.pages
            pagesCrawled := st.pagesCrawled + 1 }) := by
  unfold crawlStep
  dsimp only

theorem crawlStep_inv (limit D : Nat) (item : String × Nat) (f : FetchOutcome)
    (st : CrawlState) (hcr : st.pagesCrawled < limit)
    (hq : ∀ p ∈ st.queue.tail, p.2 ≤ D) (hd : item.2 ≤ D)
    (hlog : ∀ p ∈ st.fetchLog, p.2 ≤ D) :
    CrawlInv limit D (crawlStep limit (D : Int) item f st) := by
  have hlog1 : ∀ p ∈ (normalizeUrl item.1, item.2) :: st.fetchLog, p.2 ≤ D := by
    intro p hp
    rcases List.mem_cons.mp hp with hp | hp
    · rw [hp]
      exact hd
    · exact hlog p hp
  cases f with
  | failure =>
    rw [crawlStep_failure]
    exact ⟨Nat.le_of_lt hcr, hq, hlog1⟩
  | nonHtml =>
    rw [crawlStep_nonHtml]
    exact ⟨Nat.le_of_lt hcr, hq, hlog1⟩
  | empty =>
    rw [crawlStep_empty]
    exact ⟨Nat.le_of_lt hcr, hq, hlog1⟩
  | page text links =>
    rw [crawlStep_page]
    by_cases h : depthOk (D : Int) item.2 ∧ st.pagesCrawled + 1 < limit
    · rw [if_pos h]
      refine ⟨hcr, ?_, hlog1⟩
      intro p hp
      rcases List.mem_append.mp hp with hp | hp
      · exact hq p hp
      · rcases List.mem_map.mp hp with ⟨l, _, hpl⟩
        have hdlt : (item.2 : Int) < (D : Int) := by
          rcases h with ⟨hok, _⟩
          unfold depthOk at hok
          rcases Bool.or_eq_true_iff.mp hok with hbad | hlt
          · rw [decide_eq_true_eq] at hbad
            omega
          · exact decide_eq_true_eq.mp hlt
        have hlt : item.2 < D := by exact_mod_cast hdlt
        rw [← hpl]
        simpa using by omega
    · rw [if_neg h]
      exact ⟨hcr, hq, hlog1⟩

theorem crawlLoop_inv (fetch : String → FetchOutcome) (ext : Nat → Bool) (limit D : Nat) :
    ∀ fuel t st, CrawlInv limit D st →
      CrawlInv limit D (crawlLoop fetch ext limit (D : Int) fuel t st) := by
  intro fuel
  induction fuel with
  | zero => intro t st h; exact h
  | succ n ih =>
    intro t st h
    rw [crawlLoop]
    have h' : CrawlInv limit D (applyExt ext t st) := by
      unfold applyExt
      by_cases he : ext t
      · simpa [he, CrawlInv] using h
      · simpa [he] using h
    set stx := applyExt ext t st with hstx
    rcases h' with ⟨hcr, hq, hlog⟩
    by_cases hquit : stx.queue = [] ∨ ¬ stx.pagesCrawled < limit
    · rw [if_pos hquit]
      exact ⟨hcr, hq, hlog⟩
    · rw [if_neg hquit]
      by_cases hcanc : 0 < stx.pagesCrawled ∧ stx.pagesCrawled % 10 = 0
          ∧ stx.jobStatus = CrawlStatus.CANCELLED
      · rw [if_pos hcanc]
        exact ⟨hcr, hq, hlog⟩
      · rw [if_neg hcanc]
        have hcrawl : stx.pagesCrawled < limit := by
          rcases not_or.mp hquit with ⟨_, h2⟩
          exact not_not.mp h2
        have hqne : stx.queue ≠ [] := (not_or.mp hquit).1
        have hhead : stx.queue.headD ("", 0) ∈ stx.queue := by
          rcases hqe : stx.queue with _ | ⟨a, rest⟩
          · exact absurd hqe hqne
          · simp
        have hdep : (stx.queue.headD ("", 0)).2 ≤ D := hq _ hhead
        have hrest : ∀ p ∈ stx.queue.tail, p.2 ≤ D := fun p hp =>
          hq p (List.mem_of_mem_tail hp)
        by_cases hvis : normalizeUrl (stx.queue.headD ("", 0)).1 ∈ stx.visited
        · rw [if_pos hvis]
          exact ih (t + 1) _ ⟨hcr, hrest, hlog⟩
        · rw [if_neg hvis]
          exact ih (t + 1) _ (crawlStep_inv limit D _ _ stx hcrawl hrest hdep hlog)

/-- C2: for a job with confirmed page limit `L` and nonnegative max
depth `D`, `processCrawlJob` crawls at most `L` pages (the counter never
exceeds `L`) and never fetches a URL at depth greater than `D`: links
are enqueued only from items at depth strictly below `D`, at depth + 1,
with the seed at depth 0. -/
theorem crawl_bounded (fetch : String → FetchOutcome) (ext : Nat → Bool) (job : CrawlJob)
    (fuel : Nat) (L D : Nat) (hL : job.confirmedLimit = some L) (hD : job.maxDepth = (D : Int)) :
    (processCrawlJob fetch ext job fuel).pagesCrawled ≤ L
    ∧ ∀ p ∈ (processCrawlJob fetch ext job fuel).fetchLog, p.2 ≤ D := by
  unfold processCrawlJob
  by_cases hst : job.status = CrawlStatus.CANCELLED
  · simp [hst]
  · simp only [if_neg hst]
    rw [hL, hD]
    dsimp only [Option.getD]
    have hinv := crawlLoop_inv fetch ext L D fuel 0
      { queue := [(job.url, 0)], visited := [], pagesFound := 0, pagesCrawled := 0,
        pagesFailed := 0, jobStatus := CrawlStatus.PROCESSING, pages := [], fetchLog := [] }
      ⟨Nat.zero_le _, by intro p hp; simp at hp; simp [hp], by intro p hp; simp at hp⟩
    exact ⟨hinv.1, hinv.2.2⟩

/-- Witness for C2 at a concrete world. -/
theorem crawl_bounded_witness :
    (CrawlJob.mk "a" 0 (some 1) CrawlStatus.QUEUED).confirmedLimit = some 1
    ∧ (CrawlJob.mk "a" 0 (some 1) CrawlStatus.QUEUED).maxDepth = ((0 : Nat) : Int)
    ∧ (processCrawlJob (fun _ => FetchOutcome.page "x" []) (fun _ => false)
        (CrawlJob.mk "a" 0 (some 1) CrawlStatus.QUEUED) 3).pagesCrawled ≤ 1 :=
  ⟨rfl, rfl,
    (crawl_bounded (fun _ => FetchOutcome.page "x" []) (fun _ => false)
      (CrawlJob.mk "a" 0 (some 1) CrawlStatus.QUEUED) 3 1 0 rfl rfl).1⟩

/-- C6 counterexample: `cancelJob` also succeeds on a FAILED job — the
guard only rejects COMPLETED and CANCELLED — so cancellation is not
restricted to the QUEUED and PROCESSING states. -/
theorem cancelJob_failed_succeeds :
    cancelJob (some ⟨"u", 0, none, CrawlStatus.FAILED⟩)
      = Except.ok ⟨"u", 0, none, CrawlStatus.CANCELLED⟩
    ∧ CrawlStatus.FAILED ≠ CrawlStatus.QUEUED
    ∧ CrawlStatus.FAILED ≠ CrawlStatus.PROCESSING := by
  refine ⟨rfl, by decide, by decide⟩

/-- C6 (amended): `cancelJob` rejects a cancel of a COMPLETED or
already-CANCELLED job with an invalid-state error (writing no update,
so the record is unchanged), rejects a missing job as not-found, and
succeeds — writing status CANCELLED — from exactly the QUEUED,
PROCESSING, and FAILED states. -/
theorem cancelJob_transitions (j : CrawlJob) :
    cancelJob none = Except.error CancelError.notFound
    ∧ ((j.status = CrawlStatus.COMPLETED ∨ j.status = CrawlStatus.CANCELLED) →
        cancelJob (some j) = Except.error CancelError.invalidState)
    ∧ ((j.status = CrawlStatus.QUEUED ∨ j.status = CrawlStatus.PROCESSING
        ∨ j.status = CrawlStatus.FAILED) →
        cancelJob (some j) = Except.ok { j with status := CrawlStatus.CANCELLED }) := by
  refine ⟨rfl, ?_, ?_⟩
  · intro h
    rcases h with h | h <;> simp [cancelJob, h]
  · intro h
    rcases h with h | h | h <;> simp [cancelJob, h]

/-- Witness for C6's amended theorem at a concrete job. -/
theorem cancelJob_transitions_witness :
    ((CrawlJob.mk "u" 0 none CrawlStatus.QUEUED).status = CrawlStatus.QUEUED
      ∨ (CrawlJob.mk "u" 0 none CrawlStatus.QUEUED).status = CrawlStatus.PROCESSING
      ∨ (CrawlJob.mk "u" 0 none CrawlStatus.QUEUED).status = CrawlStatus.FAILED)
    ∧ cancelJob (some (CrawlJob.mk "u" 0 none CrawlStatus.QUEUED))
        = Except.ok (CrawlJob.mk "u" 0 none CrawlStatus.CANCELLED) :=
  ⟨Or.inl rfl, (cancelJob_transitions (CrawlJob.mk "u" 0 none CrawlStatus.QUEUED)).2.2 (Or.inl rfl)⟩

/-! ### C1 — cancellation mid-crawl

Concrete world for the failing scenario: every page links to one fresh
URL (`u ↦ u ++ "a"`), and an external `cancelJob` write lands before
iteration 10, exactly when `pagesCrawled` reaches the periodic-check
multiple of 10. -/

/-- Fetch oracle: every URL is an HTML page linking to one new URL. -/
def fetchC1 : String → FetchOutcome := fun u => FetchOutcome.page "x" [u ++ "a"]

/-- External cancellation lands before iteration 10. -/
def extC1 : Nat → Bool := fun t => t == 10

/-- The crawl job for the C1 scenario: unbounded depth, limit 50. -/
def jobC1 : CrawlJob := ⟨"a", -1, some 50, CrawlStatus.QUEUED⟩

/-- The loop's entry state for `jobC1`, as `processCrawlJob` builds it. -/
def st0C1 : CrawlState := ⟨[("a", 0)], [], 0, 0, 0, CrawlStatus.PROCESSING, [], []⟩

/-- C1 at the failing input: the periodic check observes the CANCELLED
status and stops — exactly 10 pages are ever fetched, and the loop exits
with the durable status still CANCELLED — but `processCrawlJob`'s
unconditional final update then overwrites the status with COMPLETED,
contradicting the claim that the final persisted status remains
CANCELLED. -/
theorem crawl_cancel_overwritten_to_completed :
    (crawlLoop fetchC1 extC1 50 (-1) 30 0 st0C1).jobStatus = CrawlStatus.CANCELLED
    ∧ (crawlLoop fetchC1 extC1 50 (-1) 30 0 st0C1).fetchLog.length = 10
    ∧ (processCrawlJob fetchC1 extC1 jobC1 30).jobStatus = CrawlStatus.COMPLETED
    ∧ (processCrawlJob fetchC1 extC1 jobC1 30).fetchLog.length = 10
    ∧ (processCrawlJob fetchC1 extC1 jobC1 30).pagesCrawled = 10 := by
  decide

end CoBuild
